import Mathlib

/-!
Verification development for the WhatsApp chat analyzer
(`preprocessor.py`, `helpers.py`, `app.py`).

The Python source is shallowly embedded: the two timestamp regular
expressions and `re.findall` are modelled by an explicit character scanner
with the same backtracking behaviour on these concrete patterns, pandas
`to_datetime(..., format=..., errors="coerce")` by strict structural date
parsers returning `Option`, and each metric helper by a pure Lean function
over the record list.  ASCII semantics are used for the character classes
(the regex classes and Python's `str.split`/`str.strip`/`str.lower`), which
covers every input relevant here; exotic Unicode digits and whitespace are
not modelled.
-/

/-- The six ASCII characters matched by the regex class `\s` and stripped by
Python's `str.split`/`str.strip` on ASCII text. -/
def isPySpace (c : Char) : Bool :=
  c = ' ' || c = '\t' || c = '\n' || c = '\r' || c = '\x0b' || c = '\x0c'

/-- The class `[APap]` from the 12-hour pattern. -/
def isAP (c : Char) : Bool := c = 'A' || c = 'P' || c = 'a' || c = 'p'

/-- The class `[Mm]` from the 12-hour pattern. -/
def isMer (c : Char) : Bool := c = 'M' || c = 'm'

/-- Python `str.strip()` (ASCII whitespace model). -/
def pyStrip (s : String) : String :=
  String.mk (((s.toList.dropWhile isPySpace).reverse.dropWhile isPySpace).reverse)

/-- Worker for `pySplit`: `cur` holds the current word reversed. -/
def pySplitAux (cur : List Char) : List Char → List (List Char)
  | [] => if cur.isEmpty then [] else [cur.reverse]
  | c :: cs =>
    if isPySpace c then
      if cur.isEmpty then pySplitAux [] cs else cur.reverse :: pySplitAux [] cs
    else pySplitAux (c :: cur) cs

/-- Python `str.split()` with no argument: split on whitespace runs,
dropping empty tokens. -/
def pySplit (s : String) : List String :=
  (pySplitAux [] s.toList).map String.mk

/-- The 26 upper/lower ASCII letter pairs: a table model of `str.lower`
restricted to ASCII, which is all the denylist comparison needs. -/
def asciiLowerTable : List (Char × Char) :=
  [('A','a'), ('B','b'), ('C','c'), ('D','d'), ('E','e'), ('F','f'),
   ('G','g'), ('H','h'), ('I','i'), ('J','j'), ('K','k'), ('L','l'),
   ('M','m'), ('N','n'), ('O','o'), ('P','p'), ('Q','q'), ('R','r'),
   ('S','s'), ('T','t'), ('U','u'), ('V','v'), ('W','w'), ('X','x'),
   ('Y','y'), ('Z','z')]

/-- Python `str.lower` on one character (ASCII model). -/
def pyLowerChar (c : Char) : Char :=
  match asciiLowerTable.find? (fun p => p.1 = c) with
  | some p => p.2
  | none => c

/-- Python `str.lower` (ASCII model). -/
def pyLowerStr (s : String) : String := String.mk (s.toList.map pyLowerChar)

/-- `needle in hay` for Python strings: substring containment. -/
def strContains (hay needle : String) : Bool :=
  hay.toList.tails.any (fun t => needle.toList.isPrefixOf t)

/-! ## The regular-expression scanner

`pattern_12hr = (\d{1,2}/\d{1,2}/\d{2,4}), (\d{1,2}:\d{2}\s?[APap][Mm]) - ([^:]+): (.+)`
`pattern_24hr = (\d{1,2}/\d{1,2}/\d{2,4}), (\d{2}:\d{2}) - ([^:]+): (.+)`

Each `\d{lo,hi}` group is followed in the pattern by a non-digit literal, so
under Python's backtracking it matches exactly the maximal digit run at the
current position, and fails when that run is shorter than `lo` or longer
than `hi`.  `[^:]+` followed by `: ` matches exactly the run of non-colon
characters up to the first colon, which must be followed by a space (no
shorter backtracked match can place a colon next).  `(.+)` is greedy with
nothing after it, so it takes the maximal run of non-newline characters,
requiring at least one.  `re.findall` scans start positions left to right
and resumes after each (always non-empty) match. -/

/-- Match a maximal digit run of length between `lo` and `hi`, returning the
digits and the rest. -/
def munchNum (lo hi : Nat) (cs : List Char) : Option (List Char × List Char) :=
  let ds := cs.takeWhile Char.isDigit
  if lo ≤ ds.length ∧ ds.length ≤ hi then some (ds, cs.dropWhile Char.isDigit)
  else none

/-- Match exactly two digits (`\d{2}`). -/
def munchTwoDigits : List Char → Option (List Char × List Char)
  | a :: b :: r => if a.isDigit && b.isDigit then some ([a, b], r) else none
  | _ => none

/-- Match one fixed literal character. -/
def expectChar (c : Char) : List Char → Option (List Char)
  | x :: r => if x = c then some r else none
  | _ => none

/-- Match `[APap][Mm]`. -/
def munchAmPm : List Char → Option (List Char × List Char)
  | a :: m :: r => if isAP a && isMer m then some ([a, m], r) else none
  | _ => none

/-- Match `\s?[APap][Mm]` with the greedy preference of `\s?`: try consuming
one whitespace character first, then fall back to none. -/
def munchSpAmPm (cs : List Char) : Option (List Char × List Char) :=
  match cs with
  | c :: rest =>
    if isPySpace c then
      match munchAmPm rest with
      | some (am, r) => some (c :: am, r)
      | none => munchAmPm cs
    else munchAmPm cs
  | [] => none

/-- Match group 1, `\d{1,2}/\d{1,2}/\d{2,4}`, returning its text. -/
def matchDate (cs : List Char) : Option (List Char × List Char) :=
  (munchNum 1 2 cs).bind fun dp =>
  (expectChar '/' dp.2).bind fun r2 =>
  (munchNum 1 2 r2).bind fun mp =>
  (expectChar '/' mp.2).bind fun r4 =>
  (munchNum 2 4 r4).bind fun yp =>
  some (dp.1 ++ '/' :: mp.1 ++ '/' :: yp.1, yp.2)

/-- Match group 2 of the 12-hour pattern, `\d{1,2}:\d{2}\s?[APap][Mm]`. -/
def matchTime12 (cs : List Char) : Option (List Char × List Char) :=
  (munchNum 1 2 cs).bind fun hp =>
  (expectChar ':' hp.2).bind fun r2 =>
  (munchTwoDigits r2).bind fun mp =>
  (munchSpAmPm mp.2).bind fun ap =>
  some (hp.1 ++ ':' :: mp.1 ++ ap.1, ap.2)

/-- Match group 2 of the 24-hour pattern, `\d{2}:\d{2}`. -/
def matchTime24 (cs : List Char) : Option (List Char × List Char) :=
  (munchTwoDigits cs).bind fun hp =>
  (expectChar ':' hp.2).bind fun r2 =>
  (munchTwoDigits r2).bind fun mp =>
  some (hp.1 ++ ':' :: mp.1, mp.2)

/-- Match the shared tail `([^:]+): (.+)` of both patterns, returning the
sender, the body, and the rest of the input. -/
def matchTail (cs : List Char) : Option (String × String × List Char) :=
  let sender := cs.takeWhile (fun c => c != ':')
  let r1 := cs.dropWhile (fun c => c != ':')
  if sender.isEmpty then none
  else
    match r1 with
    | ':' :: ' ' :: r2 =>
      let body := r2.takeWhile (fun c => c != '\n')
      if body.isEmpty then none
      else some (String.mk sender, String.mk body, r2.dropWhile (fun c => c != '\n'))
    | _ => none

/-- One raw `re.findall` match: the four captured groups. -/
structure RawMatch where
  date : String
  time : String
  user : String
  message : String
deriving DecidableEq, Repr

/-- Attempt the 12-hour pattern at the start of `cs`. -/
def step12 (cs : List Char) : Option (RawMatch × List Char) :=
  (matchDate cs).bind fun dp =>
  (expectChar ',' dp.2).bind fun r2 =>
  (expectChar ' ' r2).bind fun r3 =>
  (matchTime12 r3).bind fun tp =>
  (expectChar ' ' tp.2).bind fun r5 =>
  (expectChar '-' r5).bind fun r6 =>
  (expectChar ' ' r6).bind fun r7 =>
  (matchTail r7).bind fun ub =>
  some ({ date := String.mk dp.1, time := String.mk tp.1,
          user := ub.1, message := ub.2.1 }, ub.2.2)

/-- Attempt the 24-hour pattern at the start of `cs`. -/
def step24 (cs : List Char) : Option (RawMatch × List Char) :=
  (matchDate cs).bind fun dp =>
  (expectChar ',' dp.2).bind fun r2 =>
  (expectChar ' ' r2).bind fun r3 =>
  (matchTime24 r3).bind fun tp =>
  (expectChar ' ' tp.2).bind fun r5 =>
  (expectChar '-' r5).bind fun r6 =>
  (expectChar ' ' r6).bind fun r7 =>
  (matchTail r7).bind fun ub =>
  some ({ date := String.mk dp.1, time := String.mk tp.1,
          user := ub.1, message := ub.2.1 }, ub.2.2)

/-- `re.findall`: scan start positions left to right, resuming after each
match.  Every successful step consumes at least one character (the body
group is non-empty), so fuel equal to the input length never runs out; see
`step12_shrinks`/`step24_shrinks` below. -/
def findAllAux (step : List Char → Option (RawMatch × List Char)) :
    Nat → List Char → List RawMatch
  | 0, _ => []
  | _, [] => []
  | fuel + 1, c :: cs =>
    match step (c :: cs) with
    | some (m, rest) => m :: findAllAux step fuel rest
    | none => findAllAux step fuel cs

/-- All matches of the 12-hour pattern in the input. -/
def findAll12 (cs : List Char) : List RawMatch := findAllAux step12 cs.length cs

/-- All matches of the 24-hour pattern in the input. -/
def findAll24 (cs : List Char) : List RawMatch := findAllAux step24 cs.length cs

/-! ## Timestamp normalization

`pd.to_datetime(Date + " " + Time, format=..., errors="coerce")` parses with
CPython's `strptime` table: `%d` is 1-2 digits valued 1-31, `%m` 1-2 digits
valued 1-12, `%Y` exactly four digits, `%I` 1-2 digits valued 1-12, `%H` 1-2
digits valued 0-23, `%M` two digits valued 0-59, `%p` is `AM`/`PM` case
insensitively, and a literal space in the format matches a run of one or
more whitespace characters.  The whole string must be consumed.  A parsed
date must be a real calendar date, and the result must fit in pandas'
`Timestamp` range, whose first and last whole minutes are
1677-09-21 00:13 and 2262-04-11 23:47. -/

/-- A normalized timestamp (minute precision, as in the source data). -/
structure DT where
  year : Nat
  month : Nat
  day : Nat
  hour : Nat
  minute : Nat
deriving DecidableEq, Repr

/-- Gregorian leap-year rule. -/
def isLeap (y : Nat) : Bool := y % 4 = 0 && (y % 100 ≠ 0 || y % 400 = 0)

/-- Days in a month. -/
def daysInMonth (y m : Nat) : Nat :=
  [31, if isLeap y then 29 else 28, 31, 30, 31, 30, 31, 31, 30, 31, 30, 31].getD (m - 1) 0

/-- English month names, as produced by `dt.month_name()`. -/
def monthNames : List String :=
  ["January", "February", "March", "April", "May", "June", "July",
   "August", "September", "October", "November", "December"]

/-- The categories list from `analyze_active_days`, which is also the set of
values `dt.day_name()` produces. -/
def daysOrder : List String :=
  ["Monday", "Tuesday", "Wednesday", "Thursday", "Friday", "Saturday", "Sunday"]

/-- Day of week by Sakamoto's congruence; 0 is Sunday. -/
def dayOfWeekIdx (y m d : Nat) : Nat :=
  let t := [0, 3, 2, 5, 0, 3, 5, 1, 4, 6, 2, 4]
  let y' := if m < 3 then y - 1 else y
  (y' + y' / 4 - y' / 100 + y' / 400 + t.getD (m - 1) 0 + d) % 7

/-- `dt.day_name()` for a valid date. -/
def dayNameOf (y m d : Nat) : String :=
  ["Sunday", "Monday", "Tuesday", "Wednesday", "Thursday", "Friday", "Saturday"].getD
    (dayOfWeekIdx y m d) ""

/-- `dt.month_name()` for a valid date. -/
def monthNameOf (m : Nat) : String := monthNames.getD (m - 1) ""

/-- Order-preserving encoding of a timestamp, used for range checks and for
chronological comparison. -/
def minuteKey (y m d h mi : Nat) : Nat := (((y * 100 + m) * 100 + d) * 100 + h) * 100 + mi

/-- The pandas `Timestamp` range at minute precision. -/
def inTimestampRange (y m d h mi : Nat) : Bool :=
  minuteKey 1677 9 21 0 13 ≤ minuteKey y m d h mi &&
  minuteKey y m d h mi ≤ minuteKey 2262 4 11 23 47

/-- Digit run to value. -/
def digitsVal (ds : List Char) : Nat := ds.foldl (fun a c => a * 10 + (c.toNat - 48)) 0

/-- A run of one or more whitespace characters (a literal space in a
`strptime` format). -/
def munchSpaces (cs : List Char) : Option (List Char) :=
  let sp := cs.takeWhile isPySpace
  if sp.isEmpty then none else some (cs.dropWhile isPySpace)

/-- Parse `%d/%m/%Y` followed by whitespace, shared by both formats.
Returns day, month, year and the rest. -/
def parseDMYSp (cs : List Char) : Option (Nat × Nat × Nat × List Char) :=
  match munchNum 1 2 cs with
  | none => none
  | some (dd, r1) =>
    match expectChar '/' r1 with
    | none => none
    | some r2 =>
      match munchNum 1 2 r2 with
      | none => none
      | some (mm, r3) =>
        match expectChar '/' r3 with
        | none => none
        | some r4 =>
          match munchNum 4 4 r4 with
          | none => none
          | some (yy, r5) =>
            match munchSpaces r5 with
            | none => none
            | some r6 =>
              let d := digitsVal dd
              let m := digitsVal mm
              let y := digitsVal yy
              if 1 ≤ d ∧ d ≤ 31 ∧ 1 ≤ m ∧ m ≤ 12 ∧ 1 ≤ y then some (d, m, y, r6)
              else none

/-- `pd.to_datetime(date ++ " " ++ time, format="%d/%m/%Y %I:%M %p",
errors="coerce")`, `None` standing for `NaT`. -/
def normalize12 (dateS timeS : String) : Option DT :=
  let cs := (dateS ++ " " ++ timeS).toList
  match parseDMYSp cs with
  | none => none
  | some (d, m, y, r1) =>
    match munchNum 1 2 r1 with
    | none => none
    | some (hh, r2) =>
      match expectChar ':' r2 with
      | none => none
      | some r3 =>
        match munchTwoDigits r3 with
        | none => none
        | some (mins, r4) =>
          match munchSpaces r4 with
          | none => none
          | some r5 =>
            let h := digitsVal hh
            let mi := digitsVal mins
            let ampm :=
              match r5 with
              | [a, mm'] =>
                if (a = 'A' ∨ a = 'a') ∧ (mm' = 'M' ∨ mm' = 'm') then some false
                else if (a = 'P' ∨ a = 'p') ∧ (mm' = 'M' ∨ mm' = 'm') then some true
                else none
              | _ => none
            match ampm with
            | none => none
            | some pm =>
              if 1 ≤ h ∧ h ≤ 12 ∧ mi ≤ 59 ∧ d ≤ daysInMonth y m then
                let h24 := if pm then (if h = 12 then 12 else h + 12)
                           else (if h = 12 then 0 else h)
                if inTimestampRange y m d h24 mi then some ⟨y, m, d, h24, mi⟩ else none
              else none

/-- `pd.to_datetime(date ++ " " ++ time, format="%d/%m/%Y %H:%M",
errors="coerce")`, `None` standing for `NaT`. -/
def normalize24 (dateS timeS : String) : Option DT :=
  let cs := (dateS ++ " " ++ timeS).toList
  match parseDMYSp cs with
  | none => none
  | some (d, m, y, r1) =>
    match munchNum 1 2 r1 with
    | none => none
    | some (hh, r2) =>
      match expectChar ':' r2 with
      | none => none
      | some r3 =>
        match munchTwoDigits r3 with
        | none => none
        | some (mins, r4) =>
          match r4 with
          | [] =>
            let h := digitsVal hh
            let mi := digitsVal mins
            if h ≤ 23 ∧ mi ≤ 59 ∧ d ≤ daysInMonth y m ∧ inTimestampRange y m d h mi then
              some ⟨y, m, d, h, mi⟩
            else none
          | _ => none

/-! ## Records and the parsed frame -/

/-- One row of the processed DataFrame: the four captured columns, the
normalized `Date-Time`, and the derived columns added at parse time
(`None` fields standing for the `NaN` a `NaT` timestamp propagates). -/
structure Record where
  date : String
  time : String
  user : String
  message : String
  dateTime : Option DT
  year : Option Nat
  monthName : Option String
  dayName : Option String
  hour : Option Nat
  minute : Option Nat
deriving DecidableEq, Repr

/-- Build a row from a raw match under the chosen normalizer (lines 15-19 /
25-29 of `preprocessor.py`; the blank-sender filter between them touches no
field, so computing the derived columns here is equivalent). -/
def mkRecord (norm : String → String → Option DT) (m : RawMatch) : Record :=
  let dt := norm m.date m.time
  { date := m.date, time := m.time, user := m.user, message := m.message,
    dateTime := dt,
    year := dt.map (·.year),
    monthName := dt.map (fun x => monthNameOf x.month),
    dayName := dt.map (fun x => dayNameOf x.year x.month x.day),
    hour := dt.map (·.hour),
    minute := dt.map (·.minute) }

/-- The DataFrame `preprocess` returns.  `hasDerived` records which columns
exist: the match branches produce all columns, while the no-match fallback
(line 21) returns an empty frame with only `Date-Time`, `User`, `Message` —
in particular without the `day` column. -/
structure Frame where
  hasDerived : Bool
  rows : List Record
deriving DecidableEq, Repr

/-- Blank-sender test of line 23: `df["User"].str.strip() != ""`. -/
def keepRow (r : Record) : Bool := pyStrip r.user != ""

/-- `preprocess(data)` from `preprocessor.py`. -/
def preprocess (data : String) : Frame :=
  let matches12 := findAll12 data.toList
  let matches24 := findAll24 data.toList
  if matches12 ≠ [] then
    { hasDerived := true, rows := (matches12.map (mkRecord normalize12)).filter keepRow }
  else if matches24 ≠ [] then
    { hasDerived := true, rows := (matches24.map (mkRecord normalize24)).filter keepRow }
  else
    { hasDerived := false, rows := [] }

/-- `df[df["User"] == selected]` from `display_analysis`, with `"Overall"`
selecting the whole frame. -/
def filterUser (selected : String) (f : Frame) : Frame :=
  if selected = "Overall" then f
  else { f with rows := f.rows.filter (fun r => r.user == selected) }

/-! ## Generic counting and sorting helpers

`collections.Counter` keeps keys in first-occurrence order.  Pandas
`value_counts` builds counts in first-occurrence order and then sorts by
count descending; `sort_values` on a key column sorts by that key
ascending.  Ties are modelled as order-preserving (numpy's sort is an
insertion sort on the small arrays at issue and pandas groupby preserves
within-group order), which the comments on each use note. -/

/-- Order-preserving deduplication (`seen` accumulates emitted keys). -/
def firstOccurAux [BEq α] (seen : List α) : List α → List α
  | [] => []
  | x :: xs =>
    if seen.contains x then firstOccurAux seen xs
    else x :: firstOccurAux (x :: seen) xs

/-- The distinct elements of `l` in order of first occurrence. -/
def firstOccur [BEq α] (l : List α) : List α := firstOccurAux [] l

/-- `collections.Counter(l)`: keys in first-occurrence order with their
multiplicities. -/
def counterOf [BEq α] (l : List α) : List (α × Nat) :=
  (firstOccur l).map (fun x => (x, l.count x))

/-- Insert `a` before the first element `b` with `pre a b`. -/
def insBy (pre : α → α → Bool) (a : α) : List α → List α
  | [] => [a]
  | b :: l => if pre a b then a :: b :: l else b :: insBy pre a l

/-- Insertion sort placing each element before the first `pre`-successor;
with a reflexive `pre` this keeps elements with equal keys in input order. -/
def pSort (pre : α → α → Bool) : List α → List α
  | [] => []
  | a :: l => insBy pre a (pSort pre l)

/-- Placement test for a count-descending sort: the incoming (earlier)
entry goes before every entry with a smaller-or-equal count. -/
def cntGe (p q : α × Nat) : Bool := q.2 ≤ p.2

/-- `Series.value_counts()`: counts in first-occurrence order, then sorted
by count descending, ties in order of appearance. -/
def valueCounts [BEq α] (l : List α) : List (α × Nat) :=
  pSort cntGe (counterOf l)

/-- Count looked up in a counter, `0` when absent (`Counter` semantics). -/
def lookupCount [BEq α] (m : List (α × Nat)) (x : α) : Nat :=
  match m.find? (fun p => p.1 == x) with
  | some p => p.2
  | none => 0

/-! ## Metric helpers from `helpers.py` -/

/-- `count_words(messages)`. -/
def countWords (messages : List String) : Nat :=
  (messages.map (fun msg => (pySplit msg).length)).sum

/-- The fixed denylist from `detect_offensive_words`. -/
def offensiveWords : List String :=
  ["nude", "sex", "fuck", "bitch", "asshole", "porn", "fool", "dick", "boobs", "slut",
   "madharchod", "nigger", "nigga", "cunt", "pussy", "lund", "lora", "chode", "mc",
   "ma ka bhosda", "gandmara"]

/-- `detect_offensive_words(messages)`: a `Counter` over the lowercased
whitespace-split tokens that appear in the denylist. -/
def detectOffensiveWords (messages : List String) : List (String × Nat) :=
  counterOf (((messages.flatMap pySplit).map pyLowerStr).filter
    (fun w => offensiveWords.contains w))

/-- `count_media_messages(messages)`. -/
def countMediaMessages (messages : List String) : Nat :=
  messages.countP (fun msg => strContains msg "<Media omitted>")

/-- `\w` (ASCII model). -/
def isWordChar (c : Char) : Bool := c.isAlpha || c.isDigit || c = '_'

/-- The top-level-suffix alternation of `url_pattern`. -/
def urlSuffixes : List String := ["com", "org", "net", "in", "gov", "edu", "info"]

/-- The class `[a-zA-Z0-9.-]`. -/
def domainChar (c : Char) : Bool := c.isAlpha || c.isDigit || c = '.' || c = '-'

/-- `\S` at the head of the rest. -/
def nonSpaceHead : List Char → Bool
  | [] => false
  | c :: _ => !(isPySpace c)

/-- One suffix alternative followed by `\b`. -/
def suffixHere (cs : List Char) : Bool :=
  urlSuffixes.any (fun suf =>
    suf.toList.isPrefixOf cs &&
    (match cs.drop suf.toList.length with
     | [] => true
     | d :: _ => !(isWordChar d)))

/-- `[a-zA-Z0-9.-]+\.(com|…)\b` starting here, with the existential
semantics of backtracking: some non-empty class run, then a literal dot,
then a suffix with a trailing boundary. -/
def altDomain : List Char → Bool
  | [] => false
  | c :: cs =>
    domainChar c &&
      ((match cs with
        | '.' :: rest => suffixHere rest
        | _ => false) || altDomain cs)

/-- `https?://\S+` starting here. -/
def altHttp (cs : List Char) : Bool :=
  ("http://".toList.isPrefixOf cs && nonSpaceHead (cs.drop 7)) ||
  ("https://".toList.isPrefixOf cs && nonSpaceHead (cs.drop 8))

/-- `www\.\S+` starting here. -/
def altWww (cs : List Char) : Bool :=
  ("www.".toList.isPrefixOf cs && nonSpaceHead (cs.drop 4))

/-- `\b`: a word boundary sits between `prev` (out-of-string counting as
non-word) and the current character when exactly one of them is a word
character. -/
def boundaryAt (prev : Option Char) (c : Char) : Bool :=
  (match prev with
   | none => false
   | some p => isWordChar p) != isWordChar c

/-- `re.search(url_pattern, msg)` as a Boolean: some start position matches
one of the three alternatives (`prev` carries the previous character for
the `\b` of the domain alternative). -/
def urlSearchAux (prev : Option Char) : List Char → Bool
  | [] => false
  | c :: cs =>
    altHttp (c :: cs) || altWww (c :: cs) ||
    (boundaryAt prev c && altDomain (c :: cs)) ||
    urlSearchAux (some c) cs

/-- `count_links(messages)`. -/
def hasUrl (msg : String) : Bool := urlSearchAux none msg.toList

/-- `count_links(messages)`: bodies containing a URL-looking fragment. -/
def countLinks (messages : List String) : Nat := messages.countP hasUrl

/-- `get_first_message_date(df)`. -/
def getFirstMessageDate (f : Frame) : String :=
  match f.rows with
  | [] => "N/A"
  | r :: _ => r.date

/-- Modelled from the spec: `get_last_message_date` is called from
`calculate_statistics` in `app.py` but is not defined in any source file
under `src/`; the spec's First/Last Message Date row says it returns the
date of the positionally last record in timeline order, with the same
empty-frame default as the first-date helper. -/
def getLastMessageDate (f : Frame) : String :=
  match f.rows.getLast? with
  | none => "N/A"
  | some r => r.date

/-- `max(messages, key=len)`: first body of maximal length. -/
def maxByLen : List String → String
  | [] => ""
  | m :: rest => rest.foldl (fun best x => if best.length < x.length then x else best) m

/-- `get_longest_message(messages)`; `messages.any()` is the pandas
truthiness test, false for an empty series and for all-empty strings. -/
def getLongestMessage (messages : List String) : String :=
  if messages.any (fun m => m != "") then maxByLen messages else ""

/-- `get_sentiment(messages)` with the TextBlob polarity score injected as
a function (it is an external classifier, not part of this repository).
Returns (positive, negative, neutral) counts. -/
def getSentiment (polarity : String → Int) (messages : List String) : Nat × Nat × Nat :=
  messages.foldl
    (fun s m =>
      let p := polarity m
      if 0 < p then (s.1 + 1, s.2.1, s.2.2)
      else if p < 0 then (s.1, s.2.1 + 1, s.2.2)
      else (s.1, s.2.1, s.2.2 + 1))
    (0, 0, 0)

/-- `get_top_users(df)`: `value_counts` of the `User` column, largest 5. -/
def getTopUsers (f : Frame) : List (String × Nat) :=
  (valueCounts (f.rows.map (·.user))).take 5

/-- `extract_emojis(messages)` with `emoji.is_emoji` injected (external
library, not part of this repository). -/
def extractEmojis (isEmoji : Char → Bool) (messages : List String) : List (Char × Nat) :=
  counterOf (messages.flatMap (fun m => m.toList.filter isEmoji))

/-- `totalMessages`: `user_df.shape[0]` in `calculate_statistics`. -/
def totalMessages (f : Frame) : Nat := f.rows.length

/-! ## `analyze_active_days` -/

/-- Round half to even at the integer, the behaviour of float `.round`
(modelled on rationals; no claim depends on the rounded values). -/
def roundHalfEven (q : Rat) : Int :=
  let fl := q.floor
  let frac := q - fl
  if frac < 1/2 then fl
  else if 1/2 < frac then fl + 1
  else if fl % 2 = 0 then fl else fl + 1

/-- `.round(2)` on a rational. -/
def round2 (q : Rat) : Rat := (roundHalfEven (q * 100) : Rat) / 100

/-- The in-place categorical rewrite `df['day'] = pd.Categorical(df['day'],
categories=days_order)`: values outside the category list become `NaN`. -/
def categorizeDay (r : Record) : Record :=
  { r with dayName := r.dayName.bind (fun v => if daysOrder.contains v then some v else none) }

/-- `analyze_active_days(df)`.  Reading `df['day']` raises a `KeyError` on
the fallback frame, which lacks that column; otherwise the function writes
the categorical column back into the caller's frame and returns the
per-day counts (`value_counts` of a categorical lists every category, `NaN`
dropped, sorted in category order) and percentage shares (`NaN`, modelled
as `none`, when the total is zero).  The written-back frame is returned
first so that the in-place effect is part of the model. -/
def analyzeActiveDays (f : Frame) :
    Except String (Frame × List (String × Nat) × List (String × Option Rat)) :=
  if f.hasDerived = false then Except.error "KeyError: day"
  else
    let rows' := f.rows.map categorizeDay
    let dayCounts := daysOrder.map (fun d => (d, rows'.countP (fun r => r.dayName == some d)))
    let total := (dayCounts.map Prod.snd).sum
    let dayPercentages := dayCounts.map (fun p =>
      (p.1, if total = 0 then none else some (round2 ((p.2 : Rat) / (total : Rat) * 100))))
    Except.ok ({ f with rows := rows' }, dayCounts, dayPercentages)

/-- The frame carried in the result of `analyze_active_days` (its in-place
effect on the caller's frame); on the error path the input frame is
untouched. -/
def frameAfterActiveDays (f : Frame) : Frame :=
  match analyzeActiveDays f with
  | Except.ok out => out.1
  | Except.error _ => f

/-- The total of the per-day counts of `analyze_active_days`, `0` on the
error path. -/
def activeDayTotal (f : Frame) : Nat :=
  match analyzeActiveDays f with
  | Except.ok out => (out.2.1.map Prod.snd).sum
  | Except.error _ => 0

/-! ## `get_conversation_starters`

`helpers.py` defines the function twice; the second definition (lines
111-133) overrides the first and is the one modelled here.  It re-parses
the raw `Date` strings with `pd.to_datetime(df['Date'], errors='coerce',
dayfirst=True)` — dateutil's lenient parser, not the strict format used in
`preprocess` — drops failures, sorts by that date (a date has no time of
day, so messages of one day keep their frame order), takes the first
sender per distinct date, and ranks senders by `value_counts`. -/

/-- dateutil's two-digit-year window, centred on the current year (2025 at
the time of modelling): a candidate `2000 + y` is moved back a century when
it lands 50 or more years in the future. -/
def windowYear2 (y : Nat) : Nat := if y ≤ 74 then 2000 + y else 1900 + y

/-- Order-preserving encoding of a calendar date. -/
def dateKey (y m d : Nat) : Nat := (y * 100 + m) * 100 + d

/-- `pd.to_datetime(s, errors='coerce', dayfirst=True)` on a slash-date
string `a/b/y` (the shape every captured `Date` group has): day-first, with
dateutil's month/day swap when the day-first reading is impossible, the
two-digit-year window, and the `Timestamp` range check. -/
def parseDateLenient (s : String) : Option Nat :=
  match (s.toList.splitOn '/').map (fun g => if g ≠ [] ∧ g.all Char.isDigit then some (digitsVal g, g.length) else none) with
  | [some (a, _), some (b, _), some (c, cl)] =>
    let y := if cl ≤ 2 then windowYear2 c else c
    let pick :=
      if 1 ≤ b ∧ b ≤ 12 ∧ 1 ≤ a ∧ a ≤ daysInMonth y b then some (y, b, a)
      else if 1 ≤ a ∧ a ≤ 12 ∧ 1 ≤ b ∧ b ≤ daysInMonth y a then some (y, a, b)
      else none
    match pick with
    | some (yy, mm, dd) =>
      if dateKey 1677 9 22 ≤ dateKey yy mm dd ∧ dateKey yy mm dd ≤ dateKey 2262 4 11 then
        some (dateKey yy mm dd)
      else none
    | none => none
  | _ => none

/-- The rows surviving `dropna` after the lenient re-parse, as
(date, sender) pairs in frame order. -/
def parsedDateRows (f : Frame) : List (Nat × String) :=
  f.rows.filterMap (fun r => (parseDateLenient r.date).map (fun d => (d, r.user)))

/-- Placement test for the ascending date sort: an earlier row goes before
every row of a later-or-equal date, so rows of one date keep frame order. -/
def dateLe (p q : Nat × String) : Bool := p.1 ≤ q.1

/-- `groupby('date_only')['User'].first()`: the first pair for each
distinct date, in list order (`seen` accumulates emitted dates). -/
def groupFirstsAux (seen : List Nat) : List (Nat × String) → List (Nat × String)
  | [] => []
  | (d, u) :: rest =>
    if seen.contains d then groupFirstsAux seen rest
    else (d, u) :: groupFirstsAux (d :: seen) rest

/-- First (date, sender) pair per distinct date. -/
def groupFirsts (l : List (Nat × String)) : List (Nat × String) := groupFirstsAux [] l

/-- The per-day first senders of `get_conversation_starters`, in date
order. -/
def starterPairs (f : Frame) : List (Nat × String) :=
  groupFirsts (pSort dateLe (parsedDateRows f))

/-- `get_conversation_starters(df)` (the overriding definition at lines
111-133 of `helpers.py`).  With `errors='coerce'` the guarded conversion
cannot raise, so the `except` branch is dead. -/
def getConversationStarters (f : Frame) : List (String × Nat) :=
  if f.rows.isEmpty then []
  else valueCounts ((starterPairs f).map Prod.snd)

/-- The match list the winning pattern produced: `matches_12hr` when it is
non-empty, otherwise `matches_24hr`. -/
def rawMatches (data : String) : List RawMatch :=
  if findAll12 data.toList ≠ [] then findAll12 data.toList
  else findAll24 data.toList

/-- A default record, for positional head/last statements. -/
instance : Inhabited Record :=
  ⟨⟨"", "", "", "", none, none, none, none, none, none⟩⟩

/-! ## Basic list lemmas -/

theorem length_dropWhile_le' (p : α → Bool) (l : List α) :
    (l.dropWhile p).length ≤ l.length := by
  induction l with
  | nil => simp [List.dropWhile]
  | cons a l ih =>
    simp only [List.dropWhile]
    split
    · exact Nat.le_succ_of_le ih
    · simp

theorem countP_add_countP_not (p : α → Bool) (l : List α) :
    l.countP p + l.countP (fun a => !p a) = l.length := by
  induction l with
  | nil => simp
  | cons a l ih =>
    by_cases h : p a <;> simp [List.countP_cons, h, ← ih] <;> omega

/-! ## Facts about the scanner -/

theorem matchTail_body {cs : List Char} {u b : String} {r : List Char}
    (h : matchTail cs = some (u, b, r)) : ∀ c ∈ b.toList, c ≠ '\n' := by
  simp only [matchTail] at h
  split at h
  · exact absurd h (by simp)
  · split at h
    · split at h
      · exact absurd h (by simp)
      · simp only [Option.some.injEq, Prod.mk.injEq] at h
        obtain ⟨-, hb, -⟩ := h
        intro c hc
        subst hb
        have := List.mem_takeWhile_imp (by simpa using hc)
        simpa [bne_iff_ne] using this
    · exact absurd h (by simp)

theorem matchTail_shrinks {cs : List Char} {u b : String} {r : List Char}
    (h : matchTail cs = some (u, b, r)) : r.length < cs.length := by
  simp only [matchTail] at h
  split at h
  · exact absurd h (by simp)
  · rename_i hcons
    split at h
    · rename_i r2 heq
      split at h
      · exact absurd h (by simp)
      · simp only [Option.some.injEq, Prod.mk.injEq] at h
        obtain ⟨-, -, hr⟩ := h
        subst hr
        have h1 : (List.dropWhile (fun c => c != ':') cs).length ≤ cs.length :=
          length_dropWhile_le' _ _
        rw [heq] at h1
        have h2 : (List.dropWhile (fun c => c != '\n') r2).length ≤ r2.length :=
          length_dropWhile_le' _ _
        simp only [List.length_cons] at h1
        omega
    · exact absurd h (by simp)

theorem munchNum_le {lo hi : Nat} {cs ds r : List Char}
    (h : munchNum lo hi cs = some (ds, r)) : r.length ≤ cs.length := by
  simp only [munchNum] at h
  split at h
  · simp only [Option.some.injEq, Prod.mk.injEq] at h
    obtain ⟨-, hr⟩ := h
    subst hr
    exact length_dropWhile_le' _ _
  · exact absurd h (by simp)

theorem expectChar_lt {c : Char} {cs r : List Char}
    (h : expectChar c cs = some r) : r.length < cs.length := by
  cases cs with
  | nil => exact absurd h (by simp [expectChar])
  | cons x xs =>
    simp only [expectChar] at h
    split at h
    · obtain rfl := Option.some.inj h
      simp
    · exact absurd h (by simp)

theorem munchTwoDigits_le {cs ds r : List Char}
    (h : munchTwoDigits cs = some (ds, r)) : r.length ≤ cs.length := by
  match cs, h with
  | a :: b :: rest, h =>
    simp only [munchTwoDigits] at h
    split at h
    · simp only [Option.some.injEq, Prod.mk.injEq] at h
      obtain ⟨-, hr⟩ := h
      subst hr
      simp
      omega
    · exact absurd h (by simp)

theorem munchAmPm_le {cs ds r : List Char}
    (h : munchAmPm cs = some (ds, r)) : r.length ≤ cs.length := by
  match cs, h with
  | a :: b :: rest, h =>
    simp only [munchAmPm] at h
    split at h
    · simp only [Option.some.injEq, Prod.mk.injEq] at h
      obtain ⟨-, hr⟩ := h
      subst hr
      simp
      omega
    · exact absurd h (by simp)

theorem munchSpAmPm_le {cs ds r : List Char}
    (h : munchSpAmPm cs = some (ds, r)) : r.length ≤ cs.length := by
  cases cs with
  | nil => exact absurd h (by simp [munchSpAmPm])
  | cons c rest =>
    simp only [munchSpAmPm] at h
    split at h
    · split at h
      · rename_i am r' heq
        simp only [Option.some.injEq, Prod.mk.injEq] at h
        obtain ⟨-, hr⟩ := h
        subst hr
        have := munchAmPm_le heq
        simp only [List.length_cons]
        omega
      · exact munchAmPm_le h
    · exact munchAmPm_le h

theorem matchDate_le {cs ds r : List Char}
    (h : matchDate cs = some (ds, r)) : r.length ≤ cs.length := by
  simp only [matchDate, Option.bind_eq_some, Option.some.injEq, Prod.mk.injEq] at h
  obtain ⟨dp, h1, r2, h2, mp, h3, r4, h4, yp, h5, -, hr⟩ := h
  subst hr
  have := @munchNum_le 1 2 cs dp.1 dp.2 (by simpa using h1)
  have := expectChar_lt h2
  have := @munchNum_le 1 2 r2 mp.1 mp.2 (by simpa using h3)
  have := expectChar_lt h4
  have := @munchNum_le 2 4 r4 yp.1 yp.2 (by simpa using h5)
  omega

theorem matchTime12_le {cs ds r : List Char}
    (h : matchTime12 cs = some (ds, r)) : r.length ≤ cs.length := by
  simp only [matchTime12, Option.bind_eq_some, Option.some.injEq, Prod.mk.injEq] at h
  obtain ⟨hp, h1, r2, h2, mp, h3, ap, h4, -, hr⟩ := h
  subst hr
  have := @munchNum_le 1 2 cs hp.1 hp.2 (by simpa using h1)
  have := expectChar_lt h2
  have := @munchTwoDigits_le r2 mp.1 mp.2 (by simpa using h3)
  have := @munchSpAmPm_le mp.2 ap.1 ap.2 (by simpa using h4)
  omega

theorem matchTime24_le {cs ds r : List Char}
    (h : matchTime24 cs = some (ds, r)) : r.length ≤ cs.length := by
  simp only [matchTime24, Option.bind_eq_some, Option.some.injEq, Prod.mk.injEq] at h
  obtain ⟨hp, h1, r2, h2, mp, h3, -, hr⟩ := h
  subst hr
  have := @munchTwoDigits_le cs hp.1 hp.2 (by simpa using h1)
  have := expectChar_lt h2
  have := @munchTwoDigits_le r2 mp.1 mp.2 (by simpa using h3)
  omega

theorem step12_message {cs : List Char} {m : RawMatch} {r : List Char}
    (h : step12 cs = some (m, r)) : ∀ c ∈ m.message.toList, c ≠ '\n' := by
  simp only [step12, Option.bind_eq_some, Option.some.injEq, Prod.mk.injEq] at h
  obtain ⟨dp, h1, r2, h2, r3, h3, tp, h4, r5, h5, r6, h6, r7, h7, ub, h8, hm, hr⟩ := h
  subst hm
  intro c hc
  exact @matchTail_body r7 ub.1 ub.2.1 ub.2.2 (by simpa using h8) c (by simpa using hc)

theorem step24_message {cs : List Char} {m : RawMatch} {r : List Char}
    (h : step24 cs = some (m, r)) : ∀ c ∈ m.message.toList, c ≠ '\n' := by
  simp only [step24, Option.bind_eq_some, Option.some.injEq, Prod.mk.injEq] at h
  obtain ⟨dp, h1, r2, h2, r3, h3, tp, h4, r5, h5, r6, h6, r7, h7, ub, h8, hm, hr⟩ := h
  subst hm
  intro c hc
  exact @matchTail_body r7 ub.1 ub.2.1 ub.2.2 (by simpa using h8) c (by simpa using hc)

theorem step12_shrinks {cs : List Char} {m : RawMatch} {r : List Char}
    (h : step12 cs = some (m, r)) : r.length < cs.length := by
  simp only [step12, Option.bind_eq_some, Option.some.injEq, Prod.mk.injEq] at h
  obtain ⟨dp, h1, r2, h2, r3, h3, tp, h4, r5, h5, r6, h6, r7, h7, ub, h8, hm, hr⟩ := h
  subst hr
  have := @matchDate_le cs dp.1 dp.2 (by simpa using h1)
  have := expectChar_lt h2
  have := expectChar_lt h3
  have := @matchTime12_le r3 tp.1 tp.2 (by simpa using h4)
  have := expectChar_lt h5
  have := expectChar_lt h6
  have := expectChar_lt h7
  have := @matchTail_shrinks r7 ub.1 ub.2.1 ub.2.2 (by simpa using h8)
  omega

theorem step24_shrinks {cs : List Char} {m : RawMatch} {r : List Char}
    (h : step24 cs = some (m, r)) : r.length < cs.length := by
  simp only [step24, Option.bind_eq_some, Option.some.injEq, Prod.mk.injEq] at h
  obtain ⟨dp, h1, r2, h2, r3, h3, tp, h4, r5, h5, r6, h6, r7, h7, ub, h8, hm, hr⟩ := h
  subst hr
  have := @matchDate_le cs dp.1 dp.2 (by simpa using h1)
  have := expectChar_lt h2
  have := expectChar_lt h3
  have := @matchTime24_le r3 tp.1 tp.2 (by simpa using h4)
  have := expectChar_lt h5
  have := expectChar_lt h6
  have := expectChar_lt h7
  have := @matchTail_shrinks r7 ub.1 ub.2.1 ub.2.2 (by simpa using h8)
  omega

/-- Every match produced by the scanning loop satisfies any property the
single-step matcher guarantees. -/
theorem mem_findAllAux {step : List Char → Option (RawMatch × List Char)}
    {Q : RawMatch → Prop}
    (hstep : ∀ cs m r, step cs = some (m, r) → Q m) :
    ∀ fuel cs m, m ∈ findAllAux step fuel cs → Q m := by
  intro fuel
  induction fuel with
  | zero => intro cs m h; simp [findAllAux] at h
  | succ n ih =>
    intro cs m h
    cases cs with
    | nil => simp [findAllAux] at h
    | cons c cs' =>
      simp only [findAllAux] at h
      cases hs : step (c :: cs') with
      | none => rw [hs] at h; exact ih _ _ h
      | some pr =>
        rw [hs] at h
        rcases List.mem_cons.mp h with h1 | h2
        · exact h1 ▸ hstep _ _ _ hs
        · exact ih _ _ h2

/-- Rows of the processed frame come from one of the two match lists. -/
theorem mem_preprocess_rows {data : String} {r : Record}
    (h : r ∈ (preprocess data).rows) :
    (∃ m, m ∈ findAll12 data.toList ∧ r = mkRecord normalize12 m) ∨
    (∃ m, m ∈ findAll24 data.toList ∧ r = mkRecord normalize24 m) := by
  simp only [preprocess] at h
  split at h
  · left
    obtain ⟨m, hm, hr⟩ := List.mem_map.mp (List.mem_filter.mp h).1
    exact ⟨m, hm, hr.symm⟩
  · split at h
    · right
      obtain ⟨m, hm, hr⟩ := List.mem_map.mp (List.mem_filter.mp h).1
      exact ⟨m, hm, hr.symm⟩
    · simp at h

/-! ## Claim C1 -/

/-- **C1, counterexample.**  The claim says a message whose body spans
multiple lines is captured whole as one record's body.  On the input
`"5/1/2023, 10:15 AM - Alice: Hello\nWorld"` the parser produces exactly
one record whose body is `"Hello"`: the body is cut at the line break and
the continuation line is not part of it, contradicting the claim. -/
theorem c1_counterexample_multiline_truncated :
    (preprocess "5/1/2023, 10:15 AM - Alice: Hello\nWorld").rows.map (fun r => r.message)
      = ["Hello"] ∧ ("Hello" : String) ≠ "Hello\nWorld" :=
  ⟨by decide, by decide⟩

/-- **C1, amended.**  The body group `(.+)` does not cross line breaks: in
every record `parse` returns, for any input, the body contains no newline
character, so a multi-line message is truncated to its first line (the
continuation lines are dropped unless they match a pattern themselves)
rather than captured whole. -/
theorem c1_amended_bodies_newline_free (data : String) :
    ((preprocess data).rows.all (fun r => r.message.toList.all (fun c => c != '\n'))) = true := by
  rw [List.all_eq_true]
  intro r hr
  rw [List.all_eq_true]
  intro c hc
  rw [bne_iff_ne]
  rcases mem_preprocess_rows hr with ⟨m, hm, rfl⟩ | ⟨m, hm, rfl⟩
  · exact mem_findAllAux (fun cs m r h => step12_message h) _ _ m hm c hc
  · exact mem_findAllAux (fun cs m r h => step24_message h) _ _ m hm c hc

/-! ## Properties of the stable insertion sort -/

theorem mem_insBy {pre : α → α → Bool} {a x : α} {l : List α} :
    x ∈ insBy pre a l ↔ x = a ∨ x ∈ l := by
  induction l with
  | nil => simp [insBy]
  | cons b l ih =>
    simp only [insBy]
    split
    · simp only [List.mem_cons]
    · simp only [List.mem_cons, ih]
      tauto

theorem filter_insBy_pos {pre : α → α → Bool} {P : α → Bool} {a : α} {l : List α}
    (ha : P a = true) (hskip : ∀ b, pre a b = false → P b = false) :
    (insBy pre a l).filter P = a :: l.filter P := by
  induction l with
  | nil => simp [insBy, ha]
  | cons b l ih =>
    simp only [insBy]
    split
    · simp [List.filter_cons, ha]
    · rename_i hpre
      have hb : P b = false := hskip b (by simpa using hpre)
      simp [List.filter_cons, hb, ih]

theorem filter_insBy_neg {pre : α → α → Bool} {P : α → Bool} {a : α} {l : List α}
    (ha : P a = false) :
    (insBy pre a l).filter P = l.filter P := by
  induction l with
  | nil => simp [insBy, ha]
  | cons b l ih =>
    simp only [insBy]
    split
    · simp [List.filter_cons, ha]
    · simp [List.filter_cons, ih]

theorem filter_pSort {pre : α → α → Bool} {P : α → Bool}
    (hskip : ∀ a b, P a = true → pre a b = false → P b = false) :
    ∀ l : List α, (pSort pre l).filter P = l.filter P := by
  intro l
  induction l with
  | nil => rfl
  | cons a l ih =>
    simp only [pSort]
    cases ha : P a with
    | true =>
      rw [filter_insBy_pos ha (fun b hb => hskip a b ha hb), ih, List.filter_cons, ha]
      simp
    | false =>
      rw [filter_insBy_neg ha, ih, List.filter_cons, ha]
      simp

theorem pairwise_insBy {pre : α → α → Bool} {a : α} {l : List α}
    (total : ∀ x y, pre x y = false → pre y x = true)
    (trans : ∀ x y z, pre x y = true → pre y z = true → pre x z = true)
    (hl : l.Pairwise (fun x y => pre x y = true)) :
    (insBy pre a l).Pairwise (fun x y => pre x y = true) := by
  induction l with
  | nil => simp [insBy]
  | cons b l ih =>
    obtain ⟨hb, hl'⟩ := List.pairwise_cons.mp hl
    simp only [insBy]
    split
    · rename_i hab
      refine List.pairwise_cons.mpr ⟨?_, hl⟩
      intro y hy
      rcases List.mem_cons.mp hy with h1 | h2
      · exact h1 ▸ hab
      · exact trans _ b y hab (hb y h2)
    · rename_i hab
      refine List.pairwise_cons.mpr ⟨?_, ih hl'⟩
      intro y hy
      rcases mem_insBy.mp hy with h1 | h2
      · exact h1 ▸ total _ b (by simpa using hab)
      · exact hb y h2

theorem pairwise_pSort {pre : α → α → Bool}
    (total : ∀ x y, pre x y = false → pre y x = true)
    (trans : ∀ x y z, pre x y = true → pre y z = true → pre x z = true) :
    ∀ l : List α, (pSort pre l).Pairwise (fun x y => pre x y = true) := by
  intro l
  induction l with
  | nil => simp [pSort]
  | cons a l ih =>
    simp only [pSort]
    exact pairwise_insBy total trans ih

/-! ## The first message of each day -/

theorem mem_groupFirstsAux {seen : List Nat} {l : List (Nat × String)} {d : Nat} {u : String} :
    (d, u) ∈ groupFirstsAux seen l ↔
      d ∉ seen ∧ l.find? (fun p => p.1 == d) = some (d, u) := by
  induction l generalizing seen with
  | nil => simp [groupFirstsAux]
  | cons p rest ih =>
    obtain ⟨e, v⟩ := p
    by_cases hde : e = d
    · subst hde
      by_cases hmem : e ∈ seen
      · simp [groupFirstsAux, ih, hmem]
      · simp [groupFirstsAux, ih, hmem, List.find?_cons, List.mem_cons, Prod.mk.injEq, eq_comm]
    · have hbeq : (e == d) = false := by simp [hde]
      have hne : ¬ (d = e) := fun hx => hde hx.symm
      by_cases hmem : e ∈ seen
      · simp [groupFirstsAux, ih, hmem, List.find?_cons, hbeq]
      · simp [groupFirstsAux, ih, hmem, List.find?_cons, hbeq, List.mem_cons, Prod.mk.injEq, hne]

/-! ## Counting and ranking lemmas -/

theorem countP_congr' {p q : α → Bool} :
    ∀ {l : List α}, (∀ a ∈ l, p a = q a) → l.countP p = l.countP q := by
  intro l h
  induction l with
  | nil => rfl
  | cons a l ih =>
    rw [List.countP_cons, List.countP_cons, h a (List.mem_cons_self a l),
      ih (fun x hx => h x (List.mem_cons_of_mem _ hx))]

theorem dateLe_total : ∀ x y : Nat × String, dateLe x y = false → dateLe y x = true := by
  intro x y h
  simp [dateLe] at *
  omega

theorem dateLe_trans :
    ∀ x y z : Nat × String, dateLe x y = true → dateLe y z = true → dateLe x z = true := by
  intro x y z hx hy
  simp [dateLe] at *
  omega

theorem cntGe_total : ∀ x y : α × Nat, cntGe x y = false → cntGe y x = true := by
  intro x y h
  simp [cntGe] at *
  omega

theorem cntGe_trans :
    ∀ x y z : α × Nat, cntGe x y = true → cntGe y z = true → cntGe x z = true := by
  intro x y z hx hy
  simp [cntGe] at *
  omega

/-- The date-ascending sort moves no row past another of its own date. -/
theorem find?_pSort_dateLe (l : List (Nat × String)) (d : Nat) :
    (pSort dateLe l).find? (fun p => p.1 == d) = l.find? (fun p => p.1 == d) := by
  rw [← List.filter_head? (fun p => p.1 == d) (pSort dateLe l),
    ← List.filter_head? (fun p => p.1 == d) l]
  rw [filter_pSort]
  intro a b ha hb
  simp [dateLe] at hb
  simp at ha
  simp [ha] at hb ⊢
  omega

theorem valueCounts_pairwise [BEq α] (l : List α) :
    (valueCounts l).Pairwise (fun p q => q.2 ≤ p.2) := by
  have h := pairwise_pSort cntGe_total cntGe_trans (counterOf l)
  exact (h.imp (fun hx => by simpa [cntGe] using hx))

theorem valueCounts_stable [BEq α] (l : List α) (c : Nat) :
    (valueCounts l).filter (fun p => p.2 == c) = (counterOf l).filter (fun p => p.2 == c) := by
  rw [valueCounts, filter_pSort]
  intro a b ha hb
  simp at ha
  simp [cntGe] at hb
  simp [ha] at hb ⊢
  omega

/-! ## Day-name and frame lemmas -/

theorem countP_congr'' {p q : α → Bool} :
    ∀ {l : List α}, (∀ a ∈ l, p a = q a) → l.countP p = l.countP q := by
  intro l h
  induction l with
  | nil => rfl
  | cons a l ih =>
    rw [List.countP_cons, List.countP_cons, h a (List.mem_cons_self a l),
      ih (fun x hx => h x (List.mem_cons_of_mem _ hx))]

theorem getD_week_mem :
    ∀ i, i < 7 →
      (["Sunday", "Monday", "Tuesday", "Wednesday", "Thursday", "Friday",
        "Saturday"].getD i "") ∈ daysOrder := by
  decide

theorem dayNameOf_mem (y m d : Nat) : dayNameOf y m d ∈ daysOrder := by
  have h7 : dayOfWeekIdx y m d < 7 := by
    unfold dayOfWeekIdx
    exact Nat.mod_lt _ (by omega)
  exact getD_week_mem _ h7

theorem mkRecord_dayName_mem {norm : String → String → Option DT} {m : RawMatch} {v : String}
    (h : (mkRecord norm m).dayName = some v) : v ∈ daysOrder := by
  simp only [mkRecord] at h
  cases hdt : norm m.date m.time with
  | none => rw [hdt] at h; simp at h
  | some dt =>
    rw [hdt] at h
    simp only [Option.map_some', Option.some.injEq] at h
    rw [← h]
    exact dayNameOf_mem dt.year dt.month dt.day

theorem preprocess_dayName_mem {data : String} {r : Record} {v : String}
    (hr : r ∈ (preprocess data).rows) (h : r.dayName = some v) : v ∈ daysOrder := by
  rcases mem_preprocess_rows hr with ⟨m, -, rfl⟩ | ⟨m, -, rfl⟩ <;> exact mkRecord_dayName_mem h

theorem categorizeDay_eq_self {r : Record} (hv : ∀ v, r.dayName = some v → v ∈ daysOrder) :
    categorizeDay r = r := by
  obtain ⟨rd, rt, ru, rm, rdt, ry, rmn, rdn, rh, rmi⟩ := r
  cases rdn with
  | none => rfl
  | some v =>
    have hmem := hv v rfl
    simp [categorizeDay, hmem]

theorem map_eq_self_of {g : α → α} : ∀ {l : List α}, (∀ x ∈ l, g x = x) → l.map g = l := by
  intro l h
  induction l with
  | nil => rfl
  | cons a l ih =>
    rw [List.map_cons, h a (List.mem_cons_self a l),
      ih (fun x hx => h x (List.mem_cons_of_mem _ hx))]

theorem mem_filterUser_rows {s : String} {f : Frame} {r : Record}
    (h : r ∈ (filterUser s f).rows) : r ∈ f.rows := by
  simp only [filterUser] at h
  split at h
  · exact h
  · exact (List.mem_filter.mp h).1

theorem sum_map_add (g h : α → Nat) : ∀ keys : List α,
    (keys.map (fun d => g d + h d)).sum = (keys.map g).sum + (keys.map h).sum := by
  intro keys
  induction keys with
  | nil => rfl
  | cons a keys ih =>
    simp only [List.map_cons, List.sum_cons, ih]
    omega

theorem sum_map_ite_one (p : α → Bool) : ∀ keys : List α,
    (keys.map (fun d => if p d then 1 else 0)).sum = keys.countP p := by
  intro keys
  induction keys with
  | nil => rfl
  | cons a keys ih =>
    rw [List.map_cons, List.sum_cons, ih, List.countP_cons]
    by_cases h : p a <;> (simp [h]; try omega)

theorem mkRecord_dayName_none_iff {norm : String → String → Option DT} {m : RawMatch} :
    ((mkRecord norm m).dayName != none) = ((mkRecord norm m).dateTime != none) := by
  cases h : norm m.date m.time <;>
    simp only [mkRecord, h, Option.map_none', Option.map_some'] <;> rfl

theorem sum_day_counts : ∀ l : List Record,
    (∀ r ∈ l, ∀ v, r.dayName = some v → v ∈ daysOrder) →
    (daysOrder.map (fun d => l.countP (fun r => r.dayName == some d))).sum
      = l.countP (fun r => r.dayName != none) := by
  intro l
  induction l with
  | nil => intro _; simp
  | cons r l ih =>
    intro hv
    have hl := ih (fun x hx => hv x (List.mem_cons_of_mem _ hx))
    have hmap : daysOrder.map (fun d => (r :: l).countP (fun x => x.dayName == some d)) =
        daysOrder.map (fun d => l.countP (fun x => x.dayName == some d) +
          (if r.dayName == some d then 1 else 0)) := by
      apply List.map_congr_left
      intro d _
      rw [List.countP_cons]
    rw [hmap, sum_map_add, hl, sum_map_ite_one, List.countP_cons]
    cases hdn : r.dayName with
    | none => simp
    | some v =>
      have hmem := hv r (List.mem_cons_self _ _) v hdn
      have h1 : daysOrder.countP (fun d => some v == some d)
          = daysOrder.countP (fun d => d == v) :=
        countP_congr'' (fun d _ => by
          rw [show ((some v == some d)) = (v == d) from rfl, Bool.beq_comm])
      have h2 : daysOrder.count v = 1 := List.count_eq_one_of_mem (by decide) hmem
      have h3 : daysOrder.countP (fun d => d == v) = 1 := h2
      simp only [h1, h3]
      simp

theorem preprocess_not_derived {data : String}
    (h : (preprocess data).hasDerived = false) : (preprocess data).rows = [] := by
  by_cases h12 : findAll12 data.toList = []
  · have h12' : findAll12 data.data = [] := h12
    by_cases h24 : findAll24 data.toList = []
    · have h24' : findAll24 data.data = [] := h24
      simp [preprocess, h12', h24']
    · have h24' : ¬ findAll24 data.data = [] := h24
      exfalso
      revert h
      simp [preprocess, h12', h24']
  · have h12' : ¬ findAll12 data.data = [] := h12
    exfalso
    revert h
    simp [preprocess, h12']

theorem activeDayTotal_eq (f : Frame) (h : f.hasDerived = true) :
    activeDayTotal f =
      (daysOrder.map (fun d =>
        (f.rows.map categorizeDay).countP (fun r => r.dayName == some d))).sum := by
  have hne : ¬ (f.hasDerived = false) := by simp [h]
  rw [activeDayTotal, analyzeActiveDays, if_neg hne]
  simp only [List.map_map]
  apply congrArg
  apply List.map_congr_left
  intro d _
  rfl

/-! ## Claim C2 -/

/-- **C2, counterexample.**  The claim says the starter of each calendar
day is the sender of the chronologically first message of that day.  On an
input whose first record is Bob at 22:15 and whose second record is Alice
at 9:05 of the same day, the metric credits Bob — the sort key is the
date-only `Date` column, so the time of day is never consulted. -/
theorem c2_counterexample_chronology_ignored :
    (preprocess "5/1/2023, 10:15 PM - Bob: hi\n5/1/2023, 9:05 AM - Alice: yo").rows.map
        (fun r => (r.user, r.dateTime)) =
      [("Bob", some ⟨2023, 1, 5, 22, 15⟩), ("Alice", some ⟨2023, 1, 5, 9, 5⟩)] ∧
    getConversationStarters
        (preprocess "5/1/2023, 10:15 PM - Bob: hi\n5/1/2023, 9:05 AM - Alice: yo") =
      [("Bob", 1)] :=
  ⟨by decide, by decide⟩

/-- **C2, amended.**  For each calendar date `d` (among records whose raw
`Date` string re-parses under the lenient day-first parser), the credited
sender is the sender of the *positionally* first such record in timeline
order — the sort is by date only and stable, so within a day frame order
decides, not the time of day — and the returned ranking is the
`value_counts` of those per-day senders, in descending count order. -/
theorem c2_amended_starters_positional (f : Frame) (d : Nat) (u : String) :
    ((d, u) ∈ starterPairs f ↔
      (parsedDateRows f).find? (fun p => p.1 == d) = some (d, u)) ∧
    getConversationStarters f = valueCounts ((starterPairs f).map Prod.snd) ∧
    (getConversationStarters f).Pairwise (fun p q => q.2 ≤ p.2) := by
  refine ⟨?_, ?_, ?_⟩
  · rw [starterPairs, groupFirsts, mem_groupFirstsAux]
    simp [find?_pSort_dateLe]
  · by_cases h : f.rows.isEmpty
    · have hnil : f.rows = [] := List.isEmpty_iff.mp h
      simp [getConversationStarters, h, starterPairs, parsedDateRows, hnil, groupFirsts,
        groupFirstsAux, pSort, valueCounts, counterOf, firstOccur, firstOccurAux]
    · simp [getConversationStarters, h]
  · by_cases h : f.rows.isEmpty
    · simp [getConversationStarters, h]
    · simp only [getConversationStarters, h, Bool.false_eq_true, if_false]
      exact valueCounts_pairwise _

/-! ## Claim C3 -/

/-- **C3.**  On every non-empty parsed frame, the First Message Date and
Last Message Date metrics return the `Date` of the positionally first and
positionally last record in timeline order (not the chronological
extremes).  `get_last_message_date` is modelled from the spec, since only
its call site is among the source files. -/
theorem c3_first_last_positional (data : String)
    (h : (preprocess data).rows ≠ []) :
    getFirstMessageDate (preprocess data) =
      ((preprocess data).rows.headD default).date ∧
    getLastMessageDate (preprocess data) =
      ((preprocess data).rows.getLastD default).date := by
  cases hrows : (preprocess data).rows with
  | nil => exact absurd hrows h
  | cons r l =>
    refine ⟨?_, ?_⟩
    · simp [getFirstMessageDate, hrows]
    · rw [getLastMessageDate, hrows]
      rw [List.getLastD_eq_getLast?]
      cases hlast : (r :: l).getLast? with
      | none => simp at hlast
      | some x => simp

/-- **C3, witness.**  A two-record input in anti-chronological order: the
first metric returns the first record's date and the second the last
record's date, positionally. -/
theorem c3_witness_first_last :
    (preprocess "6/1/2023, 10:00 AM - Carol: x\n5/1/2023, 9:00 AM - Dan: y").rows ≠ [] ∧
    getFirstMessageDate (preprocess "6/1/2023, 10:00 AM - Carol: x\n5/1/2023, 9:00 AM - Dan: y") =
      "6/1/2023" ∧
    getLastMessageDate (preprocess "6/1/2023, 10:00 AM - Carol: x\n5/1/2023, 9:00 AM - Dan: y") =
      "5/1/2023" :=
  ⟨by decide,
   (c3_first_last_positional "6/1/2023, 10:00 AM - Carol: x\n5/1/2023, 9:00 AM - Dan: y"
     (by decide)).1.trans (by decide),
   (c3_first_last_positional "6/1/2023, 10:00 AM - Carol: x\n5/1/2023, 9:00 AM - Dan: y"
     (by decide)).2.trans (by decide)⟩

/-! ## Claim C4 -/

/-- **C4.**  Whenever the 12-hour pattern yields at least one match on the
whole input, the parsed frame is built exclusively from those matches,
normalized with the 12-hour format — the 24-hour match list plays no part
in the result. -/
theorem c4_twelve_hour_precedence (data : String)
    (h12 : findAll12 data.toList ≠ []) :
    preprocess data =
      { hasDerived := true,
        rows := ((findAll12 data.toList).map (mkRecord normalize12)).filter keepRow } := by
  simp only [preprocess]
  rw [if_pos h12]

/-- **C4, witness.**  A mixed input: one 12-hour line and one 24-hour line.
Both patterns match somewhere, yet the result contains only the 12-hour
record (Alice); Bob's 24-hour line is discarded. -/
theorem c4_witness_mixed_input :
    findAll12 "5/1/2023, 10:15 AM - Alice: hi\n5/1/2023, 22:15 - Bob: yo".toList ≠ [] ∧
    findAll24 "5/1/2023, 10:15 AM - Alice: hi\n5/1/2023, 22:15 - Bob: yo".toList ≠ [] ∧
    preprocess "5/1/2023, 10:15 AM - Alice: hi\n5/1/2023, 22:15 - Bob: yo" =
      { hasDerived := true,
        rows := ((findAll12 "5/1/2023, 10:15 AM - Alice: hi\n5/1/2023, 22:15 - Bob: yo".toList).map
          (mkRecord normalize12)).filter keepRow } ∧
    (preprocess "5/1/2023, 10:15 AM - Alice: hi\n5/1/2023, 22:15 - Bob: yo").rows.map
      (fun r => r.user) = ["Alice"] :=
  ⟨by decide, by decide,
   c4_twelve_hour_precedence "5/1/2023, 10:15 AM - Alice: hi\n5/1/2023, 22:15 - Bob: yo" (by decide),
   by decide⟩

/-! ## Claim C7 -/

/-- **C7, counterexample.**  Bob appears before Alice in the timeline, both
send one message, and the Top Users ranking lists Bob first even though
Alice's name is lexicographically smaller — ties are not broken by name. -/
theorem c7_counterexample_tie_not_lexicographic :
    getTopUsers (preprocess "5/1/2023, 10:15 AM - Bob: hi\n5/1/2023, 10:20 AM - Alice: yo") =
      [("Bob", 1), ("Alice", 1)] ∧
    List.Lex (· < ·) "Alice".toList "Bob".toList :=
  ⟨by decide, List.Lex.rel (by decide)⟩

/-- **C7, amended.**  Top Users is the first five entries of the sender
`value_counts`: counts are in descending order, and senders with equal
counts appear in order of their first occurrence in the timeline (the
order of the underlying counter), not in lexicographic order. -/
theorem c7_amended_top_users_first_occurrence (f : Frame) :
    getTopUsers f = (valueCounts (f.rows.map (fun r => r.user))).take 5 ∧
    (getTopUsers f).Pairwise (fun p q => q.2 ≤ p.2) ∧
    ∀ c : Nat, (valueCounts (f.rows.map (fun r => r.user))).filter (fun p => p.2 == c) =
      (counterOf (f.rows.map (fun r => r.user))).filter (fun p => p.2 == c) := by
  refine ⟨rfl, ?_, fun c => valueCounts_stable _ c⟩
  exact List.Pairwise.sublist (List.take_sublist 5 _) (valueCounts_pairwise _)

/-! ## Claim C5 -/

/-- **C5, counterexample.**  On an input matching neither pattern the
parser returns the empty fallback frame — which lacks the derived `day`
column — and `analyze_active_days` applied to it raises a `KeyError`
instead of returning a zero/empty default. -/
theorem c5_counterexample_active_days_raises :
    preprocess "no timestamps in this text" = { hasDerived := false, rows := [] } ∧
    analyzeActiveDays (preprocess "no timestamps in this text") =
      Except.error "KeyError: day" :=
  ⟨by decide, rfl⟩

/-- **C5, amended.**  When no line matches either pattern, `parse` returns
the empty timeline, and every metric except the active-day distribution
returns its zero/empty default; the active-day distribution raises on the
missing `day` column (in the app it is never reached, because analysis is
guarded by the frame being non-empty). -/
theorem c5_amended_empty_defaults (data : String) (pol : String → Int) (isEmoji : Char → Bool)
    (h12 : findAll12 data.toList = []) (h24 : findAll24 data.toList = []) :
    preprocess data = { hasDerived := false, rows := [] } ∧
    totalMessages (preprocess data) = 0 ∧
    countWords ((preprocess data).rows.map (fun r => r.message)) = 0 ∧
    countMediaMessages ((preprocess data).rows.map (fun r => r.message)) = 0 ∧
    countLinks ((preprocess data).rows.map (fun r => r.message)) = 0 ∧
    getFirstMessageDate (preprocess data) = "N/A" ∧
    getLastMessageDate (preprocess data) = "N/A" ∧
    getLongestMessage ((preprocess data).rows.map (fun r => r.message)) = "" ∧
    getSentiment pol ((preprocess data).rows.map (fun r => r.message)) = (0, 0, 0) ∧
    detectOffensiveWords ((preprocess data).rows.map (fun r => r.message)) = [] ∧
    getTopUsers (preprocess data) = [] ∧
    extractEmojis isEmoji ((preprocess data).rows.map (fun r => r.message)) = [] ∧
    getConversationStarters (preprocess data) = [] ∧
    analyzeActiveDays (preprocess data) = Except.error "KeyError: day" := by
  have h12' : findAll12 data.data = [] := h12
  have h24' : findAll24 data.data = [] := h24
  have hp : preprocess data = { hasDerived := false, rows := [] } := by
    simp [preprocess, h12', h24']
  rw [hp]
  exact ⟨rfl, rfl, rfl, rfl, rfl, rfl, rfl, rfl, rfl, rfl, rfl, rfl, rfl, rfl⟩

/-- **C5, witness.**  A concrete non-matching input discharging the
hypotheses of the amended theorem. -/
theorem c5_amended_witness :
    findAll12 "just plain words".toList = [] ∧ findAll24 "just plain words".toList = [] ∧
    preprocess "just plain words" = { hasDerived := false, rows := [] } :=
  ⟨by decide, by decide,
   (c5_amended_empty_defaults "just plain words" (fun _ => 0) (fun _ => false)
     (by decide) (by decide)).1⟩

/-! ## Claim C6 -/

/-- **C6, counterexample.**  A two-digit year: strict normalization
(`%Y` wants four digits) fails, so the record's timestamp is null — yet
Conversation Starters credits Alice, because it re-parses the raw `Date`
string with the lenient day-first parser instead of consulting the
normalized timestamp.  The claim's "excluded from all date-dependent
metrics" is therefore false for this metric. -/
theorem c6_counterexample_starters_use_raw_date :
    (preprocess "5/1/23, 10:15 AM - Alice: hi").rows.map (fun r => r.dateTime) = [none] ∧
    getConversationStarters (preprocess "5/1/23, 10:15 AM - Alice: hi") = [("Alice", 1)] :=
  ⟨by decide, by decide⟩

/-- **C6, amended.**  Records whose date/time fails normalization are
retained with a null timestamp: the Total Messages count is the number of
valid-timestamp rows plus the number of null-timestamp rows, while the
active-day distribution totals exactly the valid-timestamp rows (null
rows fall in no day bucket).  Conversation Starters, however, re-parses
the raw `Date` string leniently and may still include null-timestamp
records (see the counterexample). -/
theorem c6_amended_null_timestamps_counted_not_dated (data : String) :
    totalMessages (preprocess data) =
      ((preprocess data).rows.filter (fun r => r.dateTime != none)).length +
      ((preprocess data).rows.filter (fun r => r.dateTime == none)).length ∧
    activeDayTotal (preprocess data) =
      ((preprocess data).rows.filter (fun r => r.dateTime != none)).length := by
  constructor
  · rw [totalMessages, ← List.countP_eq_length_filter, ← List.countP_eq_length_filter]
    have hsum := countP_add_countP_not (fun r : Record => r.dateTime == none)
      ((preprocess data).rows)
    have h2 : (preprocess data).rows.countP (fun r => r.dateTime != none)
        = (preprocess data).rows.countP (fun r => !(r.dateTime == none)) :=
      countP_congr'' (fun r _ => rfl)
    omega
  · by_cases hd : (preprocess data).hasDerived = false
    · have hrows := preprocess_not_derived hd
      have herr : analyzeActiveDays (preprocess data) = Except.error "KeyError: day" := by
        rw [analyzeActiveDays, if_pos hd]
      rw [activeDayTotal, herr, hrows]
      rfl
    · have hd' : (preprocess data).hasDerived = true := by
        cases hb : (preprocess data).hasDerived
        · exact absurd hb hd
        · rfl
      have hid : (preprocess data).rows.map categorizeDay = (preprocess data).rows :=
        map_eq_self_of (fun r hr =>
          categorizeDay_eq_self (fun v hv => preprocess_dayName_mem hr hv))
      rw [activeDayTotal_eq _ hd', hid,
        sum_day_counts _ (fun r hr v hv => preprocess_dayName_mem hr hv),
        ← List.countP_eq_length_filter]
      exact countP_congr'' (fun r hr => by
        rcases mem_preprocess_rows hr with ⟨m, -, rfl⟩ | ⟨m, -, rfl⟩ <;>
          exact mkRecord_dayName_none_iff)

/-! ## Claim C8 -/

theorem filter_keepRow_length (norm : String → String → Option DT) (ms : List RawMatch) :
    ((ms.map (mkRecord norm)).filter keepRow).length =
      ms.length - (ms.filter (fun m => pyStrip m.user == "")).length := by
  rw [← List.countP_eq_length_filter, ← List.countP_eq_length_filter, List.countP_map]
  have hc : ms.countP (keepRow ∘ mkRecord norm) = ms.countP (fun m => !(pyStrip m.user == "")) :=
    countP_congr'' (fun m _ => rfl)
  have hsum := countP_add_countP_not (fun m : RawMatch => pyStrip m.user == "") ms
  omega

/-- **C8.**  Every record in the parsed timeline has a non-blank sender
after stripping, and when the winning pattern yields `N` raw matches of
which `K` have a whitespace-only sender, the timeline has exactly `N - K`
records. -/
theorem c8_blank_senders_dropped (data : String) :
    ((preprocess data).rows.all keepRow) = true ∧
    (preprocess data).rows.length =
      (rawMatches data).length -
        ((rawMatches data).filter (fun m => pyStrip m.user == "")).length := by
  constructor
  · rw [List.all_eq_true]
    intro r hr
    simp only [preprocess] at hr
    split at hr
    · exact (List.mem_filter.mp hr).2
    · split at hr
      · exact (List.mem_filter.mp hr).2
      · simp at hr
  · rw [rawMatches]
    simp only [preprocess]
    by_cases h12 : findAll12 data.toList ≠ []
    · rw [if_pos h12, if_pos h12]
      exact filter_keepRow_length normalize12 _
    · rw [if_neg h12, if_neg h12]
      by_cases h24 : findAll24 data.toList ≠ []
      · rw [if_pos h24]
        exact filter_keepRow_length normalize24 _
      · rw [if_neg h24]
        have h24' : findAll24 data.data = [] := not_ne_iff.mp h24
        simp [h24']

/-! ## Claim C9 -/

/-- **C9.**  Metrics are pure functions in the model by construction; the
one metric that writes into the caller's DataFrame, `analyze_active_days`
(its in-place categorical rewrite of the `day` column), leaves the frame
it is given — the full timeline or any sender-filtered subset of a parse
result — unchanged, because every `day` value a parse can produce is
already one of the seven category names.  On the error path the frame is
untouched as well. -/
theorem c9_metrics_pure_frame_unchanged (data selected : String) :
    frameAfterActiveDays (filterUser selected (preprocess data)) =
      filterUser selected (preprocess data) := by
  rw [frameAfterActiveDays]
  cases hres : analyzeActiveDays (filterUser selected (preprocess data)) with
  | error e => rfl
  | ok out =>
    simp only [analyzeActiveDays] at hres
    split at hres
    · exact absurd hres (by simp)
    · have hout := Except.ok.inj hres
      rw [← hout]
      have hrows : (filterUser selected (preprocess data)).rows.map categorizeDay =
          (filterUser selected (preprocess data)).rows :=
        map_eq_self_of (fun r hr =>
          categorizeDay_eq_self (fun v hv =>
            preprocess_dayName_mem (mem_filterUser_rows hr) hv))
      simp [hrows]

/-! ## Claim C10 -/

theorem pySplitAux_no_space :
    ∀ (cs cur : List Char), (∀ c ∈ cur, isPySpace c = false) →
      ∀ w ∈ pySplitAux cur cs, ∀ c ∈ w, isPySpace c = false := by
  intro cs
  induction cs with
  | nil =>
    intro cur hcur w hw c hc
    simp only [pySplitAux] at hw
    split at hw
    · simp at hw
    · rw [List.mem_singleton] at hw
      subst hw
      exact hcur c (List.mem_reverse.mp hc)
  | cons a cs ih =>
    intro cur hcur w hw c hc
    simp only [pySplitAux] at hw
    split at hw
    · split at hw
      · exact ih [] (by simp) w hw c hc
      · rcases List.mem_cons.mp hw with h1 | h2
        · subst h1
          exact hcur c (List.mem_reverse.mp hc)
        · exact ih [] (by simp) w h2 c hc
    · rename_i ha
      refine ih (a :: cur) ?_ w hw c hc
      intro x hx
      rcases List.mem_cons.mp hx with h1 | h2
      · subst h1
        simpa using ha
      · exact hcur x h2

theorem pyLowerChar_not_space {c : Char} (h : isPySpace c = false) :
    isPySpace (pyLowerChar c) = false := by
  rw [pyLowerChar]
  cases hf : asciiLowerTable.find? (fun p => p.1 = c) with
  | none => exact h
  | some p =>
    have hp := List.mem_of_find?_eq_some hf
    have hall : ∀ q ∈ asciiLowerTable, isPySpace q.2 = false := by decide
    exact hall p hp

theorem mem_firstOccurAux [BEq α] {seen l : List α} {x : α}
    (h : x ∈ firstOccurAux seen l) : x ∈ l := by
  induction l generalizing seen with
  | nil => simp [firstOccurAux] at h
  | cons a l ih =>
    simp only [firstOccurAux] at h
    split at h
    · exact List.mem_cons_of_mem _ (ih h)
    · rcases List.mem_cons.mp h with h1 | h2
      · subst h1
        exact List.mem_cons_self _ _
      · exact List.mem_cons_of_mem _ (ih h2)

theorem mem_counterOf_keys [BEq α] {l : List α} {p : α × Nat}
    (h : p ∈ counterOf l) : p.1 ∈ l := by
  obtain ⟨x, hx, rfl⟩ := List.mem_map.mp h
  exact mem_firstOccurAux hx

theorem detectOffensive_key_no_space {messages : List String} {p : String × Nat}
    (hp : p ∈ detectOffensiveWords messages) : ∀ c ∈ p.1.toList, isPySpace c = false := by
  have h1 : p.1 ∈ ((messages.flatMap pySplit).map pyLowerStr).filter
      (fun w => offensiveWords.contains w) := mem_counterOf_keys hp
  have h2 := (List.mem_filter.mp h1).1
  obtain ⟨t, ht, hteq⟩ := List.mem_map.mp h2
  obtain ⟨msg, hmsg, htok⟩ := List.mem_flatMap.mp ht
  intro c hc
  rw [← hteq] at hc
  obtain ⟨c0, hc0, hceq⟩ := List.mem_map.mp (by simpa [pyLowerStr] using hc)
  rw [← hceq]
  apply pyLowerChar_not_space
  obtain ⟨w, hw, hweq⟩ := List.mem_map.mp htok
  rw [← hweq] at hc0
  exact pySplitAux_no_space msg.toList [] (by simp) w hw c0 (by simpa using hc0)

/-- **C10.**  Every key the Offensive Words counter reports is a single
whitespace-free token (it came from `str.split`), so the denylist entry
`"ma ka bhosda"`, which contains spaces, has count zero on every input. -/
theorem c10_offensive_tokens_whitespace_free (messages : List String) :
    ((detectOffensiveWords messages).all
      (fun p => p.1.toList.all (fun c => !(isPySpace c)))) = true ∧
    lookupCount (detectOffensiveWords messages) "ma ka bhosda" = 0 := by
  have hkey : ∀ p ∈ detectOffensiveWords messages, ∀ c ∈ p.1.toList, isPySpace c = false :=
    fun p hp => detectOffensive_key_no_space hp
  constructor
  · rw [List.all_eq_true]
    intro p hp
    rw [List.all_eq_true]
    intro c hc
    simp [hkey p hp c hc]
  · rw [lookupCount]
    cases hf : (detectOffensiveWords messages).find? (fun q => q.1 == "ma ka bhosda") with
    | none => rfl
    | some q =>
      exfalso
      have hq1 : q.1 = "ma ka bhosda" := by simpa using List.find?_some hf
      have hmem := List.mem_of_find?_eq_some hf
      have hsp := hkey q hmem ' ' (by rw [hq1]; decide)
      exact absurd hsp (by decide)
